import Mathlib

/-!  Shallow embedding of the tool dispatch engine of
`src/tools/tool_registry.py`: tool descriptors, the tool registry with
rule-based selection (`needs_tool`, `select_tool`), validated execution
with failure capture (`execute_tool`, `execute_if_needed`), and usage
statistics (`get_usage_stats`).

Modelling conventions:
* Parameter values and handler outputs are drawn from an arbitrary type
  `V`; a Python `dict` of parameters becomes an association list keyed by
  strings (only key membership and the opaque values matter here).
* A Python handler that may raise becomes `Params V → Except String V`;
  `Except.error e` stands for a raised exception whose `str(e)` is `e`.
* The registry's `self.tools` dict maps `tool.name` to the tool and is
  only ever written by `register`, so every key equals its tool's `name`;
  it is embedded as an insertion-ordered list of tools with dict-update
  (replace in place, else append) and lookup by name.
* Mutation of `self.tool_usage_log` becomes explicit state passing:
  `execute_tool` returns the updated registry together with its result.
* Python string truthiness (`if needs_tool and tool_name:`) is modelled
  by `truthy`: `None` and the empty string are falsy.
-/

namespace ToolRegistryPy

/-- The `ToolType` enum: categories of tools. -/
inductive ToolType where
  | web
  | file
  | data
  | calculation
  | communication
  | system
  deriving DecidableEq

/-- A parameter dict: association list from parameter names to values. -/
abbrev Params (V : Type) : Type := List (String × V)

/-- Key membership in a parameter dict (`p in params` in Python). -/
def hasKey {V : Type} (params : Params V) (k : String) : Bool :=
  params.any (fun e => e.1 == k)

/-- The `Tool` dataclass: a tool that can be executed. -/
structure Tool (V : Type) where
  name : String
  type : ToolType
  description : String
  handler : Params V → Except String V
  keywords : List String
  required_params : List String

/-- The `ToolResult` class: result of a tool execution.  `output` and
`error` default to `None`, modelled by `Option`. -/
structure ToolResult (V : Type) where
  tool_name : String
  success : Bool
  output : Option V
  error : Option String
  deriving DecidableEq

/-- One entry of `self.tool_usage_log` (a dict with keys `tool`,
`params`, `success`, and on failure also `error`). -/
structure UsageRecord (V : Type) where
  tool : String
  params : Params V
  success : Bool
  error : Option String
  deriving DecidableEq

/-- The `ToolRegistry` state: the tools dict (insertion-ordered, keyed by
tool name) and the usage log. -/
structure ToolRegistry (V : Type) where
  tools : List (Tool V)
  tool_usage_log : List (UsageRecord V)

/-- Python dict update `self.tools[tool.name] = tool`: replace the entry
with the same name in place, otherwise append at the end. -/
def insertTool {V : Type} : List (Tool V) → Tool V → List (Tool V)
  | [], t => [t]
  | u :: rest, t => if u.name == t.name then t :: rest else u :: insertTool rest t

/-- Model of `register`: store the tool under its name (builder pattern: the
updated registry is the return value). -/
def register {V : Type} (reg : ToolRegistry V) (t : Tool V) : ToolRegistry V :=
  { reg with tools := insertTool reg.tools t }

/-- Python dict lookup `self.tools.get(name)` / `self.tools[name]`. -/
def lookupTool {V : Type} (ts : List (Tool V)) (n : String) : Option (Tool V) :=
  ts.find? (fun t => t.name == n)

/-- Model of `str.lower()`: lower-case the string characterwise. -/
def lowerStr (s : String) : String := String.mk (s.data.map Char.toLower)

/-- Contiguous-sublist test on character lists: does `needle` occur as a
contiguous run inside the second list? -/
def isSubListOf (needle : List Char) : List Char → Bool
  | [] => needle.isEmpty
  | d :: ds => needle.isPrefixOf (d :: ds) || isSubListOf needle ds

/-- Python substring test `needle in hay`. -/
def containsSub (hay needle : String) : Bool :=
  isSubListOf needle.data hay.data

/-- The fixed `action_patterns` table of `needs_tool`, keyed by the
`tool.type.value` string; every enum value has an entry, so the
membership guard `if tool_type in action_patterns` in the source is
always true and the table is total. -/
def actionPatterns : ToolType → List String
  | .web => ["fetch", "download", "scrape", "get url", "http", "api call"]
  | .file => ["read file", "write file", "save to", "load from", "open file"]
  | .data => ["parse", "transform", "filter", "aggregate", "sort"]
  | .calculation => ["calculate", "compute", "sum", "average", "count"]
  | .communication => ["send email", "notify", "message", "alert"]
  | .system => ["execute", "run command", "shell", "process"]

/-- Rule 1 test for one tool: some keyword, lower-cased, is a substring
of the lower-cased task description. -/
def keywordHit {V : Type} (task_lower : String) (t : Tool V) : Bool :=
  t.keywords.any (fun k => containsSub task_lower (lowerStr k))

/-- Rule 2 test for one tool: some pattern of the tool's category is a
substring of the lower-cased task description (the table's patterns are
written in lower case and are not lowered again by the source). -/
def patternHit {V : Type} (task_lower : String) (t : Tool V) : Bool :=
  (actionPatterns t.type).any (fun pat => containsSub task_lower pat)

/-- Model of `needs_tool`: two-tier first-match decision in insertion order. -/
def needs_tool {V : Type} (reg : ToolRegistry V) (task_description : String) :
    Bool × Option String :=
  let task_lower := lowerStr task_description
  match reg.tools.find? (fun t => keywordHit task_lower t) with
  | some t => (true, some t.name)
  | none =>
    match reg.tools.find? (fun t => patternHit task_lower t) with
    | some t => (true, some t.name)
    | none => (false, none)

/-- Python truthiness of an `Optional[str]`: `None` and `""` are falsy. -/
def truthy : Option String → Bool
  | none => false
  | some s => !(s == "")

/-- Model of `select_tool`: `if needs_tool and tool_name: return self.tools.get(tool_name)`. -/
def select_tool {V : Type} (reg : ToolRegistry V) (task_description : String) :
    Option (Tool V) :=
  let r := needs_tool reg task_description
  if r.1 && truthy r.2 then
    match r.2 with
    | some n => lookupTool reg.tools n
    | none => none
  else none

/-- A single-quote character, for reproducing Python message formatting. -/
def sq : String := String.mk [Char.ofNat 39]

/-- Python `repr` of a plain string (as interpolated into an f-string
through a list). -/
def pyStrRepr (s : String) : String := sq ++ s ++ sq

/-- Python `repr` of a list of strings, as produced by
`f"... {missing_params}"`. -/
def pyListRepr (xs : List String) : String :=
  "[" ++ String.intercalate ", " (xs.map pyStrRepr) ++ "]"

/-- The f-string `f"Tool '{tool_name}' not found"`. -/
def notFoundMsg (n : String) : String :=
  "Tool " ++ sq ++ n ++ sq ++ " not found"

/-- The f-string `f"Missing required parameters: {missing_params}"`. -/
def missingMsg (xs : List String) : String :=
  "Missing required parameters: " ++ pyListRepr xs

/-- The list comprehension `[p for p in tool.required_params if p not in params]`. -/
def missingParams {V : Type} (t : Tool V) (params : Params V) : List String :=
  t.required_params.filter (fun q => !(hasKey params q))

/-- Model of `execute_tool`: validated execution with failure capture and usage
logging.  Returns the updated registry (the mutated usage log) together
with the `ToolResult`. -/
def execute_tool {V : Type} (reg : ToolRegistry V) (tool_name : String)
    (params : Params V) : ToolRegistry V × ToolResult V :=
  match lookupTool reg.tools tool_name with
  | none => (reg, ⟨tool_name, false, none, some (notFoundMsg tool_name)⟩)
  | some tool =>
    let missing := missingParams tool params
    if missing.isEmpty then
      match tool.handler params with
      | Except.ok output =>
        ({ reg with tool_usage_log :=
            reg.tool_usage_log ++ [⟨tool_name, params, true, none⟩] },
         ⟨tool_name, true, some output, none⟩)
      | Except.error e =>
        ({ reg with tool_usage_log :=
            reg.tool_usage_log ++ [⟨tool_name, params, false, some e⟩] },
         ⟨tool_name, false, none, some e⟩)
    else
      (reg, ⟨tool_name, false, none, some (missingMsg missing)⟩)

/-- Model of `execute_if_needed`: select a tool for the task; `None` when no tool
is selected, otherwise the result of `execute_tool` on the selected
tool's name. -/
def execute_if_needed {V : Type} (reg : ToolRegistry V) (task_description : String)
    (params : Params V) : ToolRegistry V × Option (ToolResult V) :=
  match select_tool reg task_description with
  | none => (reg, none)
  | some tool =>
    let r := execute_tool reg tool.name params
    (r.1, some r.2)

/-- Model of `list_tools`: all tools, or only those of the given type, in
insertion order. -/
def list_tools {V : Type} (reg : ToolRegistry V) (tool_type : Option ToolType) :
    List (Tool V) :=
  match tool_type with
  | none => reg.tools
  | some ty => reg.tools.filter (fun t => t.type == ty)

/-- One per-tool line of the statistics. -/
structure ToolStats where
  total : Nat
  success : Nat
  failure : Nat
  deriving DecidableEq

/-- The dict returned by `get_usage_stats` (`by_tool` is a dict in
insertion order of first use). -/
structure UsageStats where
  total : Nat
  success : Nat
  failure : Nat
  by_tool : List (String × ToolStats)
  deriving DecidableEq

/-- The increments applied to one `by_tool` entry for one log record. -/
def statBump (s : ToolStats) (succ : Bool) : ToolStats :=
  ⟨s.total + 1, s.success + (if succ then 1 else 0),
   s.failure + (if succ then 0 else 1)⟩

/-- One iteration of the `for log in self.tool_usage_log` loop of
`get_usage_stats`: create the entry if absent, then bump its counters. -/
def updateByTool (bt : List (String × ToolStats)) (n : String) (succ : Bool) :
    List (String × ToolStats) :=
  if bt.any (fun e => e.1 == n) then
    bt.map (fun e => if e.1 == n then (e.1, statBump e.2 succ) else e)
  else
    bt ++ [(n, statBump ⟨0, 0, 0⟩ succ)]

/-- Model of `get_usage_stats`: totals, success/failure split, per-tool breakdown;
all-zero summary on an empty log. -/
def get_usage_stats {V : Type} (reg : ToolRegistry V) : UsageStats :=
  let total := reg.tool_usage_log.length
  if total = 0 then ⟨0, 0, 0, []⟩
  else
    let success_count := reg.tool_usage_log.countP (fun l => l.success)
    let by_tool := reg.tool_usage_log.foldl
      (fun bt l => updateByTool bt l.tool l.success) []
    ⟨total, success_count, total - success_count, by_tool⟩

/-- Does a call `execute_tool reg n params` reach the handler-invocation
stage?  True exactly when the name is registered and no required
parameter is missing (the two pre-invocation guards of the source). -/
def reaches_handler {V : Type} (reg : ToolRegistry V) (n : String)
    (params : Params V) : Bool :=
  match lookupTool reg.tools n with
  | none => false
  | some tool => (missingParams tool params).isEmpty

/-- The keys of a `by_tool` association list. -/
def keysOf (bt : List (String × ToolStats)) : List String := bt.map Prod.fst

/-- Sum of the per-tool `total` counters of a `by_tool` breakdown. -/
def sumTotal (bt : List (String × ToolStats)) : Nat :=
  (bt.map (fun e => e.2.total)).sum

/-- Sum of the per-tool `success` counters of a `by_tool` breakdown. -/
def sumSuccess (bt : List (String × ToolStats)) : Nat :=
  (bt.map (fun e => e.2.success)).sum

/-- Sum of the per-tool `failure` counters of a `by_tool` breakdown. -/
def sumFailure (bt : List (String × ToolStats)) : Nat :=
  (bt.map (fun e => e.2.failure)).sum

/-! ### Concrete fixtures

Small registries over `V := Nat`, mirroring the example registrations at
the bottom of the source file, used to instantiate the theorems below at
concrete inputs. -/

/-- A tool like the example `web_fetch` registration (handler always
succeeds). -/
def webFetchTool : Tool Nat :=
  { name := "web_fetch"
    type := .web
    description := "Fetch content from a URL"
    handler := fun _ => Except.ok 200
    keywords := ["fetch", "download", "url", "http", "api"]
    required_params := ["url"] }

/-- A tool whose handler always raises (`Except.error "boom"`). -/
def bombTool : Tool Nat :=
  { name := "bomb"
    type := .system
    description := "Always raises"
    handler := fun _ => Except.error "boom"
    keywords := ["explode"]
    required_params := [] }

/-- A registry holding `webFetchTool` then `bombTool`, empty log. -/
def sampleReg : ToolRegistry Nat :=
  { tools := [webFetchTool, bombTool], tool_usage_log := [] }

/-- A registry whose single tool has the empty string among its
keywords. -/
def emptyKeywordReg : ToolRegistry Nat :=
  { tools := [{ name := "anytool"
                type := .data
                description := "d"
                handler := fun _ => Except.ok 0
                keywords := [""]
                required_params := [] }]
    tool_usage_log := [] }

/-- A registry whose single tool is registered under the empty string as
its name. -/
def emptyNameReg : ToolRegistry Nat :=
  { tools := [{ name := ""
                type := .web
                description := "d"
                handler := fun _ => Except.ok 0
                keywords := ["x"]
                required_params := [] }]
    tool_usage_log := [] }

/-! ### Helper lemmas -/

/-- First-match characterisation of `List.find?`: it returns `a` exactly
when the list splits as a prefix of non-matches followed by `a`, which
matches. -/
theorem find?_eq_some_split {α : Type} (p : α → Bool) (l : List α) (a : α) :
    l.find? p = some a ↔
      ∃ l₁ l₂, l = l₁ ++ a :: l₂ ∧ p a = true ∧ ∀ x ∈ l₁, p x = false := by
  induction l with
  | nil => simp
  | cons h t ih =>
    by_cases hp : p h = true
    · rw [List.find?_cons_of_pos _ hp]
      constructor
      · intro he
        obtain rfl : h = a := by injection he
        exact ⟨[], t, rfl, hp, by simp⟩
      · rintro ⟨l₁, l₂, heq, hpa, hall⟩
        cases l₁ with
        | nil =>
          simp only [List.nil_append, List.cons.injEq] at heq
          rw [heq.1]
        | cons x xs =>
          simp only [List.cons_append, List.cons.injEq] at heq
          have hx : p h = false := heq.1 ▸ hall x (List.mem_cons_self x xs)
          rw [hp] at hx
          cases hx
    · rw [List.find?_cons_of_neg _ hp, ih]
      constructor
      · rintro ⟨l₁, l₂, heq, hpa, hall⟩
        refine ⟨h :: l₁, l₂, by rw [heq, List.cons_append], hpa, ?_⟩
        intro x hx
        rcases List.mem_cons.1 hx with rfl | hx'
        · exact Bool.not_eq_true _ ▸ Bool.of_not_eq_true hp
        · exact hall x hx'
      · rintro ⟨l₁, l₂, heq, hpa, hall⟩
        cases l₁ with
        | nil =>
          simp only [List.nil_append, List.cons.injEq] at heq
          exact absurd (heq.1 ▸ hpa) hp
        | cons x xs =>
          simp only [List.cons_append, List.cons.injEq] at heq
          exact ⟨xs, l₂, heq.2, hpa,
            fun y hy => hall y (List.mem_cons_of_mem x hy)⟩

/-- The empty character list occurs in every list. -/
theorem isSubListOf_nil (l : List Char) : isSubListOf [] l = true := by
  cases l <;> simp [isSubListOf, List.isPrefixOf, List.isEmpty]

/-- The empty string is a Python-substring of every string. -/
theorem containsSub_empty (s : String) : containsSub s "" = true :=
  isSubListOf_nil s.data

/-- A successful name lookup returns a tool carrying the queried name. -/
theorem lookupTool_name {V : Type} {ts : List (Tool V)} {n : String}
    {t : Tool V} (h : lookupTool ts n = some t) : t.name = n := by
  have hb := List.find?_some h
  exact eq_of_beq hb

/-- Looking up the name of a member tool cannot miss. -/
theorem lookupTool_isSome_of_mem {V : Type} {ts : List (Tool V)}
    {t : Tool V} (h : t ∈ ts) : (lookupTool ts t.name).isSome = true := by
  rw [lookupTool, List.find?_isSome]
  exact ⟨t, h, by simp⟩

/-- The function `needs_tool` returns either `(false, none)` or `(true, some n)` with
`n` the name of a registered tool. -/
theorem needs_tool_shape {V : Type} (reg : ToolRegistry V) (d : String) :
    needs_tool reg d = (false, none) ∨
      ∃ t, t ∈ reg.tools ∧ needs_tool reg d = (true, some t.name) := by
  unfold needs_tool
  cases hk : reg.tools.find? (fun t => keywordHit (lowerStr d) t) with
  | some t =>
    right
    exact ⟨t, List.mem_of_find?_eq_some hk, by simp [hk]⟩
  | none =>
    cases hp : reg.tools.find? (fun t => patternHit (lowerStr d) t) with
    | some t =>
      right
      exact ⟨t, List.mem_of_find?_eq_some hp, by simp [hk, hp]⟩
    | none => left; simp [hk, hp]

/-- Unfolding of `keysOf` on a cons. -/
theorem keysOf_cons (e : String × ToolStats) (l : List (String × ToolStats)) :
    keysOf (e :: l) = e.1 :: keysOf l := rfl

/-- Unfolding of `sumTotal` on a cons. -/
theorem sumTotal_cons (e : String × ToolStats) (l : List (String × ToolStats)) :
    sumTotal (e :: l) = e.2.total + sumTotal l := by simp [sumTotal]

/-- Unfolding of `sumSuccess` on a cons. -/
theorem sumSuccess_cons (e : String × ToolStats) (l : List (String × ToolStats)) :
    sumSuccess (e :: l) = e.2.success + sumSuccess l := by simp [sumSuccess]

/-- Unfolding of `sumFailure` on a cons. -/
theorem sumFailure_cons (e : String × ToolStats) (l : List (String × ToolStats)) :
    sumFailure (e :: l) = e.2.failure + sumFailure l := by simp [sumFailure]

/-- Bumping existing `by_tool` entries in place keeps the key list. -/
theorem keysOf_bumpMap (bt : List (String × ToolStats)) (n : String) (s : Bool) :
    keysOf (bt.map (fun e => if e.1 == n then (e.1, statBump e.2 s) else e))
      = keysOf bt := by
  induction bt with
  | nil => rfl
  | cons e rest ih =>
    by_cases he : (e.1 == n) = true
    · rw [List.map_cons, if_pos he, keysOf_cons, keysOf_cons, ih]
    · rw [List.map_cons, if_neg he, keysOf_cons, keysOf_cons, ih]

/-- Bumping all matching entries raises the `total` sum by the number of
matching entries. -/
theorem sumTotal_bumpMap (bt : List (String × ToolStats)) (n : String) (s : Bool) :
    sumTotal (bt.map (fun e => if e.1 == n then (e.1, statBump e.2 s) else e))
      = sumTotal bt + bt.countP (fun e => e.1 == n) := by
  induction bt with
  | nil => rfl
  | cons e rest ih =>
    by_cases he : (e.1 == n) = true
    · rw [List.map_cons, if_pos he, sumTotal_cons, sumTotal_cons, ih,
        List.countP_cons, if_pos he]
      simp only [statBump]
      omega
    · rw [List.map_cons, if_neg he, sumTotal_cons, sumTotal_cons, ih,
        List.countP_cons, if_neg he]
      omega

/-- Bumping all matching entries raises the `success` sum by the success
increment times the number of matching entries. -/
theorem sumSuccess_bumpMap (bt : List (String × ToolStats)) (n : String) (s : Bool) :
    sumSuccess (bt.map (fun e => if e.1 == n then (e.1, statBump e.2 s) else e))
      = sumSuccess bt + (if s then 1 else 0) * bt.countP (fun e => e.1 == n) := by
  induction bt with
  | nil => cases s <;> rfl
  | cons e rest ih =>
    by_cases he : (e.1 == n) = true
    · rw [List.map_cons, if_pos he, sumSuccess_cons, sumSuccess_cons, ih,
        List.countP_cons, if_pos he]
      simp only [statBump]
      cases s <;> simp <;> omega
    · rw [List.map_cons, if_neg he, sumSuccess_cons, sumSuccess_cons, ih,
        List.countP_cons, if_neg he]
      cases s <;> simp <;> omega

/-- Bumping all matching entries raises the `failure` sum by the failure
increment times the number of matching entries. -/
theorem sumFailure_bumpMap (bt : List (String × ToolStats)) (n : String) (s : Bool) :
    sumFailure (bt.map (fun e => if e.1 == n then (e.1, statBump e.2 s) else e))
      = sumFailure bt + (if s then 0 else 1) * bt.countP (fun e => e.1 == n) := by
  induction bt with
  | nil => cases s <;> rfl
  | cons e rest ih =>
    by_cases he : (e.1 == n) = true
    · rw [List.map_cons, if_pos he, sumFailure_cons, sumFailure_cons, ih,
        List.countP_cons, if_pos he]
      simp only [statBump]
      cases s <;> simp <;> omega
    · rw [List.map_cons, if_neg he, sumFailure_cons, sumFailure_cons, ih,
        List.countP_cons, if_neg he]
      cases s <;> simp <;> omega

/-- With duplicate-free keys, a key that occurs at all occurs in exactly
one entry. -/
theorem countP_key_eq_one {bt : List (String × ToolStats)} {n : String}
    (hnd : (keysOf bt).Nodup) (hany : bt.any (fun e => e.1 == n) = true) :
    bt.countP (fun e => e.1 == n) = 1 := by
  have h1 : bt.countP (fun e => e.1 == n)
      = (keysOf bt).countP (fun x => x == n) := by
    rw [keysOf, List.countP_map]
    rfl
  have hmem : n ∈ keysOf bt := by
    rw [List.any_eq_true] at hany
    obtain ⟨e, he, hb⟩ := hany
    have hfst : e.1 = n := eq_of_beq hb
    exact hfst ▸ List.mem_map_of_mem Prod.fst he
  have h2 := List.count_eq_one_of_mem hnd hmem
  rw [h1]
  simpa [List.count] using h2

/-- The loop body of `get_usage_stats` keeps the `by_tool` keys
duplicate-free. -/
theorem keysOf_updateByTool_nodup (bt : List (String × ToolStats))
    (n : String) (s : Bool) (h : (keysOf bt).Nodup) :
    (keysOf (updateByTool bt n s)).Nodup := by
  unfold updateByTool
  by_cases hany : bt.any (fun e => e.1 == n) = true
  · rw [if_pos hany, keysOf_bumpMap]
    exact h
  · rw [if_neg hany]
    have hn : n ∉ keysOf bt := by
      intro hmem
      obtain ⟨e, he, hfst⟩ := List.mem_map.1 hmem
      exact hany (List.any_eq_true.2 ⟨e, he, by simp [hfst]⟩)
    have hkeys : keysOf (bt ++ [(n, statBump ⟨0, 0, 0⟩ s)])
        = keysOf bt ++ [n] := by
      simp [keysOf]
    rw [hkeys]
    refine List.Nodup.append h (List.nodup_singleton n) ?_
    intro x hx hx'
    rw [List.mem_singleton] at hx'
    exact hn (hx' ▸ hx)

/-- The loop body of `get_usage_stats` raises the `total` sum by one. -/
theorem sumTotal_updateByTool (bt : List (String × ToolStats))
    (n : String) (s : Bool) (h : (keysOf bt).Nodup) :
    sumTotal (updateByTool bt n s) = sumTotal bt + 1 := by
  unfold updateByTool
  by_cases hany : bt.any (fun e => e.1 == n) = true
  · rw [if_pos hany, sumTotal_bumpMap, countP_key_eq_one h hany]
  · rw [if_neg hany]
    simp [sumTotal, statBump]

/-- The loop body of `get_usage_stats` raises the `success` sum by one
exactly on success records. -/
theorem sumSuccess_updateByTool (bt : List (String × ToolStats))
    (n : String) (s : Bool) (h : (keysOf bt).Nodup) :
    sumSuccess (updateByTool bt n s) = sumSuccess bt + (if s then 1 else 0) := by
  unfold updateByTool
  by_cases hany : bt.any (fun e => e.1 == n) = true
  · rw [if_pos hany, sumSuccess_bumpMap, countP_key_eq_one h hany,
      Nat.mul_one]
  · rw [if_neg hany]
    cases s <;> simp [sumSuccess, statBump]

/-- The loop body of `get_usage_stats` raises the `failure` sum by one
exactly on failure records. -/
theorem sumFailure_updateByTool (bt : List (String × ToolStats))
    (n : String) (s : Bool) (h : (keysOf bt).Nodup) :
    sumFailure (updateByTool bt n s) = sumFailure bt + (if s then 0 else 1) := by
  unfold updateByTool
  by_cases hany : bt.any (fun e => e.1 == n) = true
  · rw [if_pos hany, sumFailure_bumpMap, countP_key_eq_one h hany,
      Nat.mul_one]
  · rw [if_neg hany]
    cases s <;> simp [sumFailure, statBump]

/-- Invariant of the `by_tool` fold of `get_usage_stats`: starting from a
duplicate-free accumulator, keys stay duplicate-free and the three
per-tool sums grow by the record count, the success count, and the
failure count of the processed records. -/
theorem stats_fold {V : Type} (l : List (UsageRecord V)) :
    ∀ bt : List (String × ToolStats), (keysOf bt).Nodup →
      (keysOf (l.foldl (fun bt r => updateByTool bt r.tool r.success) bt)).Nodup ∧
      sumTotal (l.foldl (fun bt r => updateByTool bt r.tool r.success) bt)
        = sumTotal bt + l.length ∧
      sumSuccess (l.foldl (fun bt r => updateByTool bt r.tool r.success) bt)
        = sumSuccess bt + l.countP (fun r => r.success) ∧
      sumFailure (l.foldl (fun bt r => updateByTool bt r.tool r.success) bt)
        = sumFailure bt + l.countP (fun r => !r.success) := by
  induction l with
  | nil => intro bt h; simp [h]
  | cons r rest ih =>
    intro bt h
    obtain ⟨h1, h2, h3, h4⟩ :=
      ih (updateByTool bt r.tool r.success)
        (keysOf_updateByTool_nodup _ _ _ h)
    refine ⟨h1, ?_, ?_, ?_⟩
    · rw [List.foldl_cons, h2, sumTotal_updateByTool _ _ _ h,
        List.length_cons]
      omega
    · rw [List.foldl_cons, h3, sumSuccess_updateByTool _ _ _ h,
        List.countP_cons]
      cases r.success <;> simp <;> omega
    · rw [List.foldl_cons, h4, sumFailure_updateByTool _ _ _ h,
        List.countP_cons]
      cases r.success <;> simp <;> omega

/-- An element sitting in the middle of a split list is a member. -/
theorem mem_of_middle {α : Type} {l l₁ l₂ : List α} {a : α}
    (h : l = l₁ ++ a :: l₂) : a ∈ l := by
  subst h
  exact List.mem_append_right _ (List.mem_cons_self _ _)

/-- A tool returned by `select_tool` can be looked up again under its own
name. -/
theorem select_tool_lookup {V : Type} {reg : ToolRegistry V} {d : String}
    {t : Tool V} (h : select_tool reg d = some t) :
    lookupTool reg.tools t.name = some t := by
  simp only [select_tool] at h
  split at h
  · split at h
    · next n heq =>
      have hn := lookupTool_name h
      rw [hn]
      exact h
    · cases h
  · cases h

/-! ### Claim theorems -/

/-- C1: for a registered tool whose handler raises, `execute_tool`
absorbs the failure into a failed `ToolResult` whose `error` is the
failure's message, and `execute_if_needed` propagates exactly that
`ToolResult` when its selection picks that tool. -/
theorem execute_tool_absorbs_handler_failure {V : Type}
    (reg : ToolRegistry V) (n : String) (p : Params V) (t : Tool V)
    (e : String) (hlook : lookupTool reg.tools n = some t)
    (hmiss : missingParams t p = []) (herr : t.handler p = Except.error e) :
    (execute_tool reg n p).2 = ⟨n, false, none, some e⟩ ∧
      ∀ d, select_tool reg d = some t →
        (execute_if_needed reg d p).2 = some ⟨t.name, false, none, some e⟩ := by
  constructor
  · simp [execute_tool, hlook, hmiss, herr]
  · intro d hsel
    have hlook' := select_tool_lookup hsel
    simp [execute_if_needed, hsel, execute_tool, hlook', hmiss, herr]

/-- C1 witness: on `sampleReg`, running the always-raising `bomb` tool
(directly and through selection on a matching description) yields the
absorbed failure result. -/
theorem execute_tool_absorbs_handler_failure_witness :
    (execute_tool sampleReg "bomb" []).2 = ⟨"bomb", false, none, some "boom"⟩ ∧
      (execute_if_needed sampleReg "please explode" []).2
        = some ⟨"bomb", false, none, some "boom"⟩ := by
  have h := execute_tool_absorbs_handler_failure sampleReg "bomb" [] bombTool
    "boom" (by rfl) (by rfl) (by rfl)
  exact ⟨h.1, h.2 "please explode" (by rfl)⟩

/-- C3: one call to `execute_tool` appends exactly one usage record when
it reaches the handler-invocation stage and none otherwise, and only ever
appends to the log. -/
theorem execute_tool_log_growth {V : Type} (reg : ToolRegistry V)
    (n : String) (p : Params V) :
    (execute_tool reg n p).1.tool_usage_log.length
        = reg.tool_usage_log.length
          + (if reaches_handler reg n p then 1 else 0) ∧
      ∃ tail, (execute_tool reg n p).1.tool_usage_log
        = reg.tool_usage_log ++ tail := by
  cases hlook : lookupTool reg.tools n with
  | none =>
    refine ⟨?_, [], ?_⟩ <;> simp [execute_tool, reaches_handler, hlook]
  | some t =>
    by_cases hm : (missingParams t p).isEmpty = true
    · cases hh : t.handler p with
      | ok v =>
        refine ⟨?_, [⟨n, p, true, none⟩], ?_⟩ <;>
          simp [execute_tool, reaches_handler, hlook, hm, hh]
      | error e =>
        refine ⟨?_, [⟨n, p, false, some e⟩], ?_⟩ <;>
          simp [execute_tool, reaches_handler, hlook, hm, hh]
    · rw [Bool.not_eq_true] at hm
      refine ⟨?_, [], ?_⟩ <;> simp [execute_tool, reaches_handler, hlook, hm]

/-- C3 witness: a handler-reaching call on `sampleReg` grows the log by
exactly one record. -/
theorem execute_tool_log_growth_witness :
    (execute_tool sampleReg "bomb" ([] : Params Nat)).1.tool_usage_log.length
      = sampleReg.tool_usage_log.length + 1 := by
  rw [(execute_tool_log_growth sampleReg "bomb" ([] : Params Nat)).1]
  rfl

/-- C4: a registered tool called with at least one required parameter
absent yields a failed `ToolResult` listing the missing names, the
handler is not invoked, and the registry (hence the usage log) is
unchanged. -/
theorem execute_tool_missing_params {V : Type} (reg : ToolRegistry V)
    (n : String) (p : Params V) (t : Tool V)
    (hlook : lookupTool reg.tools n = some t)
    (hmiss : missingParams t p ≠ []) :
    execute_tool reg n p
      = (reg, ⟨n, false, none, some (missingMsg (missingParams t p))⟩) := by
  have hm : (missingParams t p).isEmpty = false := by
    cases hq : missingParams t p with
    | nil => exact absurd hq hmiss
    | cons a l => simp [hq]
  simp [execute_tool, hlook, hm]

/-- C4 witness: calling `web_fetch` without its required `url` parameter
fails with the missing-parameter message and leaves the registry
unchanged. -/
theorem execute_tool_missing_params_witness :
    execute_tool sampleReg "web_fetch" []
      = (sampleReg, ⟨"web_fetch", false, none, some (missingMsg ["url"])⟩) :=
  execute_tool_missing_params sampleReg "web_fetch" [] webFetchTool
    (by rfl) (by decide)

/-- C8: every `ToolResult` produced by `execute_tool` populates exactly
one of `output`/`error` as dictated by `success`. -/
theorem tool_result_exclusivity {V : Type} (reg : ToolRegistry V)
    (n : String) (p : Params V) :
    ((execute_tool reg n p).2.success = true →
        (∃ v, (execute_tool reg n p).2.output = some v) ∧
          (execute_tool reg n p).2.error = none) ∧
      ((execute_tool reg n p).2.success = false →
        (execute_tool reg n p).2.output = none ∧
          ∃ e, (execute_tool reg n p).2.error = some e) := by
  cases hlook : lookupTool reg.tools n with
  | none => simp [execute_tool, hlook]
  | some t =>
    by_cases hm : (missingParams t p).isEmpty = true
    · cases hh : t.handler p with
      | ok v => simp [execute_tool, hlook, hm, hh]
      | error e => simp [execute_tool, hlook, hm, hh]
    · rw [Bool.not_eq_true] at hm
      simp [execute_tool, hlook, hm]

/-- C8 witness: the failed lookup result on `sampleReg` populates `error`
and not `output`. -/
theorem tool_result_exclusivity_witness :
    (execute_tool sampleReg "nope" ([] : Params Nat)).2.output = none ∧
      ∃ e, (execute_tool sampleReg "nope" ([] : Params Nat)).2.error = some e :=
  (tool_result_exclusivity sampleReg "nope" []).2 (by rfl)

/-- C5: `execute_if_needed` returns `None` exactly when selection yields
no tool; otherwise it is exactly `execute_tool` on the selected tool's
name; and on the no-tool path the registry (hence the usage log) is
unchanged. -/
theorem execute_if_needed_spec {V : Type} (reg : ToolRegistry V)
    (d : String) (p : Params V) :
    ((execute_if_needed reg d p).2 = none ↔ select_tool reg d = none) ∧
      (∀ t, select_tool reg d = some t →
        execute_if_needed reg d p
          = ((execute_tool reg t.name p).1, some (execute_tool reg t.name p).2)) ∧
      (select_tool reg d = none → execute_if_needed reg d p = (reg, none)) := by
  cases hsel : select_tool reg d with
  | none => simp [execute_if_needed, hsel]
  | some t =>
    refine ⟨by simp [execute_if_needed, hsel], ?_, by simp⟩
    intro t' ht'
    injection ht' with ht'
    subst ht'
    simp [execute_if_needed, hsel]

/-- C5 witness: a description matching nothing executes no tool and
leaves the registry unchanged. -/
theorem execute_if_needed_spec_witness :
    execute_if_needed sampleReg "Just think about this" ([] : Params Nat)
      = (sampleReg, none) :=
  (execute_if_needed_spec sampleReg "Just think about this" []).2.2 (by rfl)

/-- Dict update then lookup under the inserted name finds the new tool
(last write wins). -/
theorem lookupTool_insertTool {V : Type} (ts : List (Tool V)) (t : Tool V) :
    lookupTool (insertTool ts t) t.name = some t := by
  induction ts with
  | nil => simp [insertTool, lookupTool]
  | cons u rest ih =>
    by_cases he : (u.name == t.name) = true
    · unfold insertTool
      rw [if_pos he]
      simp [lookupTool, List.find?]
    · unfold insertTool
      rw [if_neg he]
      have he' : (u.name == t.name) = false := by
        rwa [Bool.not_eq_true] at he
      unfold lookupTool at ih ⊢
      simp only [List.find?, he']
      exact ih

/-- Dict update adds the inserted name to the name set. -/
theorem toFinset_names_insertTool {V : Type} (ts : List (Tool V)) (t : Tool V) :
    ((insertTool ts t).map Tool.name).toFinset
      = insert t.name (ts.map Tool.name).toFinset := by
  induction ts with
  | nil => simp [insertTool]
  | cons u rest ih =>
    by_cases he : (u.name == t.name) = true
    · have hu : u.name = t.name := eq_of_beq he
      unfold insertTool
      rw [if_pos he]
      simp [List.toFinset_cons, hu]
    · unfold insertTool
      rw [if_neg he]
      rw [List.map_cons, List.toFinset_cons, ih, List.map_cons,
        List.toFinset_cons]
      exact Finset.Insert.comm u.name t.name _

/-- Dict update keeps the name list duplicate-free. -/
theorem nodup_names_insertTool {V : Type} (ts : List (Tool V)) (t : Tool V)
    (h : (ts.map Tool.name).Nodup) :
    ((insertTool ts t).map Tool.name).Nodup := by
  induction ts with
  | nil => simp [insertTool]
  | cons u rest ih =>
    rw [List.map_cons, List.nodup_cons] at h
    obtain ⟨hu, hrest⟩ := h
    by_cases he : (u.name == t.name) = true
    · have hun : u.name = t.name := eq_of_beq he
      unfold insertTool
      rw [if_pos he, List.map_cons, List.nodup_cons]
      exact ⟨hun ▸ hu, hrest⟩
    · unfold insertTool
      rw [if_neg he, List.map_cons, List.nodup_cons]
      refine ⟨?_, ih hrest⟩
      intro hmem
      rw [← List.mem_toFinset, toFinset_names_insertTool] at hmem
      rcases Finset.mem_insert.1 hmem with heq | hmem'
      · exact he (by simp [heq])
      · exact hu (List.mem_toFinset.1 hmem')

/-- A fold of registrations keeps names duplicate-free and accumulates
exactly the union of the registered names. -/
theorem foldl_register_names {V : Type} (ts : List (Tool V)) :
    ∀ reg : ToolRegistry V, (reg.tools.map Tool.name).Nodup →
      (((ts.foldl register reg).tools.map Tool.name).Nodup ∧
        ((ts.foldl register reg).tools.map Tool.name).toFinset
          = (reg.tools.map Tool.name).toFinset ∪ (ts.map Tool.name).toFinset) := by
  induction ts with
  | nil => intro reg h; simp [h]
  | cons t rest ih =>
    intro reg h
    obtain ⟨h1, h2⟩ := ih (register reg t) (nodup_names_insertTool _ _ h)
    refine ⟨h1, ?_⟩
    rw [List.foldl_cons, h2]
    show ((insertTool reg.tools t).map Tool.name).toFinset ∪ _ = _
    rw [toFinset_names_insertTool, List.map_cons, List.toFinset_cons]
    ext x
    simp

/-- C7: `register` stores the descriptor under its name with last write
winning, touches no usage record, keeps names unique, and after any
sequence of registrations from a fresh registry `list_tools` has exactly
one entry per distinct registered name. -/
theorem register_unique_names {V : Type} (reg : ToolRegistry V) (t : Tool V)
    (ts : List (Tool V)) :
    lookupTool (register reg t).tools t.name = some t ∧
      (register reg t).tool_usage_log = reg.tool_usage_log ∧
      ((reg.tools.map Tool.name).Nodup →
        ((register reg t).tools.map Tool.name).Nodup) ∧
      (list_tools (ts.foldl register ⟨[], []⟩) none).length
        = (ts.map Tool.name).toFinset.card := by
  refine ⟨lookupTool_insertTool reg.tools t, rfl,
    nodup_names_insertTool reg.tools t, ?_⟩
  obtain ⟨h1, h2⟩ := foldl_register_names ts ⟨[], []⟩ (by simp)
  have hlen : (list_tools (ts.foldl register ⟨[], []⟩) none).length
      = ((ts.foldl register (⟨[], []⟩ : ToolRegistry V)).tools.map
          Tool.name).length := by
    simp [list_tools]
  rw [hlen, ← List.toFinset_card_of_nodup h1, h2]
  simp

/-- C7 witness: re-registering `web_fetch` replaces it and `list_tools`
counts distinct names only. -/
theorem register_unique_names_witness :
    lookupTool (register sampleReg webFetchTool).tools "web_fetch"
        = some webFetchTool ∧
      (list_tools ([webFetchTool, bombTool, webFetchTool].foldl register
          (⟨[], []⟩ : ToolRegistry Nat)) none).length = 2 := by
  have h := register_unique_names sampleReg webFetchTool
    [webFetchTool, bombTool, webFetchTool]
  refine ⟨h.1, ?_⟩
  rw [h.2.2.2]
  decide

/-- C9: a registered tool with the empty string among its keywords makes
the keyword rule fire on every task description, so `needs_tool` never
reports "no tool needed". -/
theorem empty_keyword_always_fires {V : Type} (reg : ToolRegistry V)
    (d : String)
    (h : reg.tools.any (fun t => t.keywords.contains "") = true) :
    (needs_tool reg d).1 = true ∧ ∃ n, (needs_tool reg d).2 = some n := by
  obtain ⟨t, ht, hk⟩ := List.any_eq_true.1 h
  have hhit : keywordHit (lowerStr d) t = true := by
    rw [keywordHit, List.any_eq_true]
    refine ⟨"", by simpa using hk, ?_⟩
    show containsSub (lowerStr d) (lowerStr "") = true
    exact containsSub_empty _
  have hsome : (reg.tools.find? (fun t => keywordHit (lowerStr d) t)).isSome
      = true := List.find?_isSome.2 ⟨t, ht, hhit⟩
  obtain ⟨t', ht'⟩ := Option.isSome_iff_exists.1 hsome
  refine ⟨?_, t'.name, ?_⟩ <;> simp [needs_tool, ht']

/-- C9 witness: with an empty keyword registered, even the empty task
description selects a tool. -/
theorem empty_keyword_always_fires_witness :
    (needs_tool emptyKeywordReg "").1 = true ∧
      ∃ n, (needs_tool emptyKeywordReg "").2 = some n :=
  empty_keyword_always_fires emptyKeywordReg "" (by decide)

/-- C10 counterexample: with a tool registered under the empty name,
`needs_tool` returns `(true, some "")` yet `select_tool` returns `none`
(Python string truthiness drops the selected name), refuting the claimed
equivalence. -/
theorem select_tool_misses_on_empty_name :
    needs_tool emptyNameReg "x" = (true, some "") ∧
      select_tool emptyNameReg "x" = none :=
  ⟨by decide, by rfl⟩

/-- C10 (amended): a name returned by `needs_tool` always looks up
successfully; `select_tool` returns `none` exactly when `needs_tool`
returns `(false, none)` or the selected name is the empty string; for a
non-empty selected name, `select_tool` is exactly the lookup of that
name. -/
theorem select_tool_amended {V : Type} (reg : ToolRegistry V) (d : String) :
    (∀ n, (needs_tool reg d).2 = some n →
        (lookupTool reg.tools n).isSome = true) ∧
      (select_tool reg d = none ↔
        needs_tool reg d = (false, none) ∨ (needs_tool reg d).2 = some "") ∧
      (∀ n, (needs_tool reg d).2 = some n → n ≠ "" →
        select_tool reg d = lookupTool reg.tools n) := by
  rcases needs_tool_shape reg d with hshape | ⟨t, hmem, hshape⟩
  · refine ⟨?_, ?_, ?_⟩
    · intro n hn
      rw [hshape] at hn
      cases hn
    · constructor
      · intro _
        exact Or.inl hshape
      · intro _
        simp [select_tool, hshape, truthy]
    · intro n hn
      rw [hshape] at hn
      cases hn
  · have hsnd : (needs_tool reg d).2 = some t.name := by rw [hshape]
    refine ⟨?_, ?_, ?_⟩
    · intro n hn
      rw [hsnd] at hn
      injection hn with hn'
      rw [← hn']
      exact lookupTool_isSome_of_mem hmem
    · by_cases hemp : t.name = ""
      · constructor
        · intro _
          right
          rw [hsnd, hemp]
        · intro _
          simp [select_tool, hshape, truthy, hemp]
      · constructor
        · intro hsel
          exfalso
          have heq : select_tool reg d = lookupTool reg.tools t.name := by
            simp [select_tool, hshape, truthy, hemp]
          rw [heq] at hsel
          have hs := lookupTool_isSome_of_mem hmem
          rw [hsel] at hs
          cases hs
        · intro hor
          rcases hor with h1 | h2
          · rw [hshape] at h1
            simp at h1
          · rw [hsnd] at h2
            injection h2 with h2'
            exact absurd h2' hemp
    · intro n hn hne
      rw [hsnd] at hn
      injection hn with hn'
      subst hn'
      simp [select_tool, hshape, truthy, hne]

/-- C10 amended-claim witness: on `sampleReg`, the non-empty selected
name `bomb` makes `select_tool` the plain lookup of that name. -/
theorem select_tool_amended_witness :
    select_tool sampleReg "explode now" = lookupTool sampleReg.tools "bomb" :=
  (select_tool_amended sampleReg "explode now").2.2 "bomb" (by decide)
    (by decide)

/-- C2: `needs_tool` is the two-tier first-match decision in insertion
order: it answers `(true, some n)` exactly when `n` names the first
registered tool with a lower-cased-keyword substring hit, or — when no
tool has a keyword hit — the first registered tool with a
category-pattern hit; it answers `(false, none)` exactly when no tool
has a hit of either kind. -/
theorem needs_tool_two_tier {V : Type} (reg : ToolRegistry V) (d : String) :
    (∀ n, needs_tool reg d = (true, some n) ↔
      ((∃ l₁ t l₂, reg.tools = l₁ ++ t :: l₂ ∧ t.name = n ∧
          keywordHit (lowerStr d) t = true ∧
          ∀ u ∈ l₁, keywordHit (lowerStr d) u = false) ∨
        ((∀ u ∈ reg.tools, keywordHit (lowerStr d) u = false) ∧
          ∃ l₁ t l₂, reg.tools = l₁ ++ t :: l₂ ∧ t.name = n ∧
            patternHit (lowerStr d) t = true ∧
            ∀ u ∈ l₁, patternHit (lowerStr d) u = false))) ∧
      (needs_tool reg d = (false, none) ↔
        ∀ u ∈ reg.tools, keywordHit (lowerStr d) u = false ∧
          patternHit (lowerStr d) u = false) := by
  cases hk : reg.tools.find? (fun t => keywordHit (lowerStr d) t) with
  | some t0 =>
    have hres : needs_tool reg d = (true, some t0.name) := by
      simp [needs_tool, hk]
    obtain ⟨la, lb, hsplit, hhit, hpre⟩ := (find?_eq_some_split _ _ _).1 hk
    constructor
    · intro n
      constructor
      · intro he
        rw [hres] at he
        simp only [Prod.mk.injEq, Option.some.injEq] at he
        exact Or.inl ⟨la, t0, lb, hsplit, he.2, hhit, hpre⟩
      · rintro (⟨l₁, t, l₂, hsp, hname, hhit', hpre'⟩ |
          ⟨hall, l₁, t, l₂, hsp, hname, hhit', hpre'⟩)
        · have hfind : reg.tools.find? (fun t => keywordHit (lowerStr d) t)
              = some t :=
            (find?_eq_some_split _ _ _).2 ⟨l₁, l₂, hsp, hhit', hpre'⟩
          rw [hk] at hfind
          injection hfind with hfind
          rw [hres, ← hname, hfind]
        · have hf := hall t0 (mem_of_middle hsplit)
          rw [hf] at hhit
          cases hhit
    · constructor
      · intro he
        rw [hres] at he
        simp at he
      · intro hall
        have hf := (hall t0 (mem_of_middle hsplit)).1
        rw [hf] at hhit
        cases hhit
  | none =>
    have hkall : ∀ u ∈ reg.tools, keywordHit (lowerStr d) u = false := by
      intro u hu
      have := List.find?_eq_none.1 hk u hu
      rwa [Bool.not_eq_true] at this
    cases hp : reg.tools.find? (fun t => patternHit (lowerStr d) t) with
    | some t0 =>
      have hres : needs_tool reg d = (true, some t0.name) := by
        simp [needs_tool, hk, hp]
      obtain ⟨la, lb, hsplit, hhit, hpre⟩ := (find?_eq_some_split _ _ _).1 hp
      constructor
      · intro n
        constructor
        · intro he
          rw [hres] at he
          simp only [Prod.mk.injEq, Option.some.injEq] at he
          exact Or.inr ⟨hkall, la, t0, lb, hsplit, he.2, hhit, hpre⟩
        · rintro (⟨l₁, t, l₂, hsp, hname, hhit', hpre'⟩ |
            ⟨hall, l₁, t, l₂, hsp, hname, hhit', hpre'⟩)
          · have hf := hkall t (mem_of_middle hsp)
            rw [hf] at hhit'
            cases hhit'
          · have hfind : reg.tools.find? (fun t => patternHit (lowerStr d) t)
                = some t :=
              (find?_eq_some_split _ _ _).2 ⟨l₁, l₂, hsp, hhit', hpre'⟩
            rw [hp] at hfind
            injection hfind with hfind
            rw [hres, ← hname, hfind]
      · constructor
        · intro he
          rw [hres] at he
          simp at he
        · intro hall
          have hf := (hall t0 (mem_of_middle hsplit)).2
          rw [hf] at hhit
          cases hhit
    | none =>
      have hres : needs_tool reg d = (false, none) := by
        simp [needs_tool, hk, hp]
      have hpall : ∀ u ∈ reg.tools, patternHit (lowerStr d) u = false := by
        intro u hu
        have := List.find?_eq_none.1 hp u hu
        rwa [Bool.not_eq_true] at this
      constructor
      · intro n
        constructor
        · intro he
          rw [hres] at he
          simp at he
        · rintro (⟨l₁, t, l₂, hsp, hname, hhit', hpre'⟩ |
            ⟨hall, l₁, t, l₂, hsp, hname, hhit', hpre'⟩)
          · have hf := hkall t (mem_of_middle hsp)
            rw [hf] at hhit'
            cases hhit'
          · have hf := hpall t (mem_of_middle hsp)
            rw [hf] at hhit'
            cases hhit'
      · constructor
        · intro _
          exact fun u hu => ⟨hkall u hu, hpall u hu⟩
        · intro _
          exact hres

/-- C2 witness: on `sampleReg`, a pattern-only description selects the
first tool whose category pattern hits (the keyword tier sees no hit),
via the two-tier characterisation. -/
theorem needs_tool_two_tier_witness :
    needs_tool sampleReg "run command now" = (true, some "bomb") :=
  ((needs_tool_two_tier sampleReg "run command now").1 "bomb").2
    (Or.inr ⟨by decide,
      [webFetchTool], bombTool, [], rfl, rfl, by decide, by decide⟩)

/-- The count of the negated success flag is the length minus the `countP`
of the success flag. -/
theorem countP_not_success {V : Type} (l : List (UsageRecord V)) :
    l.countP (fun r => !r.success)
      = l.length - l.countP (fun r => r.success) := by
  induction l with
  | nil => rfl
  | cons r rest ih =>
    rw [List.countP_cons, List.countP_cons, List.length_cons, ih]
    have hle := List.countP_le_length (p := fun r => r.success) (l := rest)
    cases r.success <;> simp <;> omega

/-- C6: `get_usage_stats` returns the all-zero summary on an empty log;
on every log, `total = success + failure` and the per-tool totals,
successes and failures each sum to the corresponding overall counter. -/
theorem get_usage_stats_consistent {V : Type} (reg : ToolRegistry V) :
    (reg.tool_usage_log = [] → get_usage_stats reg = ⟨0, 0, 0, []⟩) ∧
      (get_usage_stats reg).total
        = (get_usage_stats reg).success + (get_usage_stats reg).failure ∧
      sumTotal (get_usage_stats reg).by_tool = (get_usage_stats reg).total ∧
      sumSuccess (get_usage_stats reg).by_tool
        = (get_usage_stats reg).success ∧
      sumFailure (get_usage_stats reg).by_tool
        = (get_usage_stats reg).failure := by
  cases hlog : reg.tool_usage_log with
  | nil =>
    have hz : get_usage_stats reg = ⟨0, 0, 0, []⟩ := by
      simp [get_usage_stats, hlog]
    refine ⟨fun _ => hz, ?_, ?_, ?_, ?_⟩ <;>
      simp [hz, sumTotal, sumSuccess, sumFailure]
  | cons r rest =>
    have hne : ¬ reg.tool_usage_log.length = 0 := by simp [hlog]
    have hstats : get_usage_stats reg
        = ⟨reg.tool_usage_log.length,
           reg.tool_usage_log.countP (fun l => l.success),
           reg.tool_usage_log.length
             - reg.tool_usage_log.countP (fun l => l.success),
           reg.tool_usage_log.foldl
             (fun bt l => updateByTool bt l.tool l.success) []⟩ := by
      unfold get_usage_stats
      rw [if_neg hne]
    obtain ⟨h1, h2, h3, h4⟩ :=
      stats_fold reg.tool_usage_log [] (by simp [keysOf])
    have hle := List.countP_le_length
      (p := fun l : UsageRecord V => l.success) (l := reg.tool_usage_log)
    refine ⟨?_, ?_, ?_, ?_, ?_⟩
    · intro h
      exact List.noConfusion h
    · rw [hstats]
      show reg.tool_usage_log.length
          = reg.tool_usage_log.countP (fun l => l.success)
            + (reg.tool_usage_log.length
                - reg.tool_usage_log.countP (fun l => l.success))
      omega
    · rw [hstats]
      show sumTotal _ = reg.tool_usage_log.length
      rw [h2]
      simp [sumTotal]
    · rw [hstats]
      show sumSuccess _ = _
      rw [h3]
      simp [sumSuccess]
    · rw [hstats]
      show sumFailure _ = _
      rw [h4, countP_not_success]
      simp [sumFailure]

/-- C6 witness: the statistics of a fresh registry are the all-zero
summary. -/
theorem get_usage_stats_consistent_witness :
    get_usage_stats (⟨[], []⟩ : ToolRegistry Nat) = ⟨0, 0, 0, []⟩ :=
  (get_usage_stats_consistent (⟨[], []⟩ : ToolRegistry Nat)).1 rfl

end ToolRegistryPy
